import Mathlib

/-!
Verification of the Hog strategy engine (hog.py).

The probability engine of hog.py is a set of mutually recursive memoized
functions over pairs of natural-number scores.  We embed them shallowly:

* `number_of_ways_to_score` and `probability_of_scoring` are direct
  translations (Python floats become exact rationals `ℚ`).
* The mutual recursion `best_num_dice_to_roll` /
  `probability_of_winning_by_rolling_n` /
  `probability_of_winning_with_turn_end_scores` is embedded with an explicit
  fuel parameter that is decremented exactly once per turn-level recursive
  call (the edge from the turn-value function back to the state-value
  function).  Since each turn adds at least one point to the mover's score
  and the recursion stops as soon as either score reaches 100, a fuel of
  200 is always sufficient; `fuel_agree` below proves that the value is
  independent of the fuel once it is at least `200 - (score + opponent_score)`,
  which is the formal counterpart of the termination argument of the spec.
  The exported functions instantiate the fuel at 201.
* `take_turn` (whose Python asserts abort on contract violations) returns
  an `Option`: `none` models a failed assert.
-/

namespace Hog

/-- Embeds the constant GOAL_SCORE = 100 of hog.py. -/
def GOAL_SCORE : Nat := 100

/-- Embeds the constant MAX_DICE_ROLLS = 10 of hog.py. -/
def MAX_DICE_ROLLS : Nat := 10

/-- Embeds hog.py `number_of_ways_to_score(k, n, s)`: the base case `n = 0`
returns 1 iff `k = 0`; otherwise the while loop sums the recursive calls for
every face `dice` with `2 ≤ dice ≤ s`.  The score argument `k` may go
negative through the recursion, so it is an `Int`. -/
def number_of_ways_to_score (k : Int) (n : Nat) (s : Nat) : Nat :=
  match n with
  | 0 => if k = 0 then 1 else 0
  | m+1 => ∑ d ∈ Finset.Icc 2 s, number_of_ways_to_score (k - (d : Int)) m s

/-- Embeds hog.py `probability_of_scoring(k, n, s)`; Python float division
becomes exact division in `ℚ`. -/
def probability_of_scoring (k : Int) (n : Nat) (s : Nat) : ℚ :=
  if k = 1 then 1 - (((s - 1) ^ n : ℕ) : ℚ) / ((s ^ n : ℕ) : ℚ)
  else ((number_of_ways_to_score k n s : ℕ) : ℚ) / ((s ^ n : ℕ) : ℚ)

/-- Embeds the Swine Swap normalization of
`probability_of_winning_with_turn_end_scores` (hog.py lines 390-392): the
pair `(score, opponent_score)` is swapped when either score is exactly
double the other. -/
def swine_swap (score opponent_score : Nat) : Nat × Nat :=
  if score * 2 = opponent_score ∨ opponent_score * 2 = score then
    (opponent_score, score)
  else
    (score, opponent_score)

/-- Embeds the Hog Wild side selection used inline in
`probability_of_winning_by_rolling_n` (hog.py lines 361-364, mirroring
`select_dice`): 4 sides when the score total is a multiple of 7, else 6. -/
def select_sides (score opponent_score : Nat) : Nat :=
  if (score + opponent_score) % 7 = 0 then 4 else 6

/-- Embeds the Free Bacon score `max(opponent_score % 10, opponent_score // 10) + 1`
computed in `take_turn` and in `probability_of_winning_by_rolling_n`. -/
def free_bacon_score (opponent_score : Nat) : Nat :=
  max (opponent_score % 10) (opponent_score / 10) + 1

mutual

/-- Fueled embedding of hog.py `best_num_dice_to_roll(score, opponent_score)`:
the while loop over `num_of_dice = 0..10` is `best_scan` started at
`n = 0` with 11 iterations, initial best probability 0 and initial best
roll count 1. -/
def best_num_dice_to_roll_fueled (fuel score opponent_score : Nat) : Nat :=
  best_scan fuel score opponent_score 0 11 0 1
termination_by (fuel, 3, 0)

/-- The while loop of hog.py `best_num_dice_to_roll`: `n` is the current
candidate roll count, `remaining` the number of iterations left, and the
accumulator holds the running best probability and best roll count; the
best is replaced only on a strictly greater probability. -/
def best_scan (fuel score opponent_score n remaining : Nat)
    (best_probability : ℚ) (best_num_of_dice : Nat) : Nat :=
  match remaining with
  | 0 => best_num_of_dice
  | r+1 =>
    if best_probability <
        probability_of_winning_by_rolling_n_fueled fuel score opponent_score n then
      best_scan fuel score opponent_score (n+1) r
        (probability_of_winning_by_rolling_n_fueled fuel score opponent_score n) n
    else
      best_scan fuel score opponent_score (n+1) r best_probability best_num_of_dice
termination_by (fuel, 2, remaining)

/-- Fueled embedding of hog.py `probability_of_winning_by_rolling_n`:
free bacon for `n = 0`, otherwise the loop summing
`probability_of_scoring(ps, n, sides) * state value (score + ps, opponent_score)`
for `ps = 1 .. sides*n` (`win_prob_sum`).  The fuel is decremented here,
once per turn. -/
def probability_of_winning_by_rolling_n_fueled (fuel score opponent_score n : Nat) : ℚ :=
  match fuel with
  | 0 => 0
  | f+1 =>
    if n = 0 then
      probability_of_winning_with_turn_end_scores_fueled f
        (score + free_bacon_score opponent_score) opponent_score
    else
      win_prob_sum f score opponent_score n (select_sides score opponent_score)
        (select_sides score opponent_score * n)
termination_by (fuel, 1, 0)

/-- The while loop of hog.py `probability_of_winning_by_rolling_n` for
`n ≥ 1`: sums, for `possible_score = 1 .. m`, the probability of scoring
`possible_score` times the state value at the turn-end scores. -/
def win_prob_sum (f score opponent_score n sides m : Nat) : ℚ :=
  match m with
  | 0 => 0
  | ps+1 =>
    win_prob_sum f score opponent_score n sides ps +
      probability_of_scoring ((ps : Int) + 1) n sides *
        probability_of_winning_with_turn_end_scores_fueled f (score + (ps + 1))
          opponent_score
termination_by (f, 5, m)

/-- Fueled embedding of hog.py `probability_of_winning_with_turn_end_scores`:
Swine Swap normalization, then the terminal checks against GOAL_SCORE, then
one minus the optimal opponent's winning probability. -/
def probability_of_winning_with_turn_end_scores_fueled (fuel score opponent_score : Nat) : ℚ :=
  if GOAL_SCORE ≤ (swine_swap score opponent_score).1 then 1
  else if GOAL_SCORE ≤ (swine_swap score opponent_score).2 then 0
  else 1 - probability_of_winning_by_rolling_n_fueled fuel
      (swine_swap score opponent_score).2 (swine_swap score opponent_score).1
      (best_num_dice_to_roll_fueled fuel (swine_swap score opponent_score).2
        (swine_swap score opponent_score).1)
termination_by (fuel, 4, 0)

end

/-- Fuel used by the exported engine functions; any value at least 200 gives
the same results (see `fuel_agree`). -/
def FUEL : Nat := 201

/-- Embeds hog.py `best_num_dice_to_roll` (the memoized recursion, at
sufficient fuel). -/
def best_num_dice_to_roll (score opponent_score : Nat) : Nat :=
  best_num_dice_to_roll_fueled FUEL score opponent_score

/-- Embeds hog.py `probability_of_winning_by_rolling_n` (the memoized
recursion, at sufficient fuel). -/
def probability_of_winning_by_rolling_n (score opponent_score n : Nat) : ℚ :=
  probability_of_winning_by_rolling_n_fueled FUEL score opponent_score n

/-- Embeds hog.py `probability_of_winning_with_turn_end_scores` (the memoized
recursion, at sufficient fuel). -/
def probability_of_winning_with_turn_end_scores (score opponent_score : Nat) : ℚ :=
  probability_of_winning_with_turn_end_scores_fueled FUEL score opponent_score

/-- The Free Bacon score is always at least 1. -/
lemma one_le_free_bacon_score (opponent_score : Nat) :
    1 ≤ free_bacon_score opponent_score := by
  unfold free_bacon_score; omega

/-- Swine Swap preserves the total of the two scores. -/
lemma swine_swap_sum (score opponent_score : Nat) :
    (swine_swap score opponent_score).1 + (swine_swap score opponent_score).2 =
      score + opponent_score := by
  unfold swine_swap; split <;> simp [Nat.add_comm]

/-- The turn-score loop `win_prob_sum` is pointwise invariant under changing
the fuel, provided the state values it reads agree. -/
lemma win_prob_sum_congr (f g score opponent_score n sides : Nat) :
    ∀ m : Nat,
      (∀ ps : Nat, 1 ≤ ps → ps ≤ m →
        probability_of_winning_with_turn_end_scores_fueled f (score + ps) opponent_score =
          probability_of_winning_with_turn_end_scores_fueled g (score + ps) opponent_score) →
      win_prob_sum f score opponent_score n sides m =
        win_prob_sum g score opponent_score n sides m := by
  intro m
  induction m with
  | zero => intro _; rw [win_prob_sum, win_prob_sum]
  | succ ps ih =>
    intro h
    rw [win_prob_sum, win_prob_sum,
      ih (fun q h1 h2 => h q h1 (Nat.le_succ_of_le h2)),
      h (ps + 1) (by omega) (Nat.le_refl _)]

/-- The arg-max scan of `best_num_dice_to_roll` is invariant under changing
the fuel, provided the scanned probabilities agree. -/
lemma best_scan_congr (f g score opponent_score : Nat)
    (h : ∀ n, probability_of_winning_by_rolling_n_fueled f score opponent_score n =
      probability_of_winning_by_rolling_n_fueled g score opponent_score n) :
    ∀ r n bp bn, best_scan f score opponent_score n r bp bn =
      best_scan g score opponent_score n r bp bn := by
  intro r
  induction r with
  | zero => intro n bp bn; rw [best_scan, best_scan]
  | succ r ih =>
    intro n bp bn
    rw [best_scan, best_scan, h n]
    split
    · exact ih (n + 1) _ n
    · exact ih (n + 1) bp bn

/-- Core termination and stability result: all three mutually recursive
functions are independent of the fuel as soon as the fuel covers the
remaining distance `200 - (score + opponent_score)` to the two goals (for
the turn-level functions, at least one unit of fuel is also required).
This is the formal counterpart of the termination argument: each turn adds
at least one point, and the recursion stops once either score reaches 100. -/
lemma fuel_agree : ∀ f : Nat,
    (∀ g score opponent_score n, 1 ≤ f → 1 ≤ g →
      200 ≤ score + opponent_score + f → 200 ≤ score + opponent_score + g →
      probability_of_winning_by_rolling_n_fueled f score opponent_score n =
        probability_of_winning_by_rolling_n_fueled g score opponent_score n) ∧
    (∀ g score opponent_score, 1 ≤ f → 1 ≤ g →
      200 ≤ score + opponent_score + f → 200 ≤ score + opponent_score + g →
      best_num_dice_to_roll_fueled f score opponent_score =
        best_num_dice_to_roll_fueled g score opponent_score) ∧
    (∀ g score opponent_score,
      200 ≤ score + opponent_score + f → 200 ≤ score + opponent_score + g →
      probability_of_winning_with_turn_end_scores_fueled f score opponent_score =
        probability_of_winning_with_turn_end_scores_fueled g score opponent_score) := by
  intro f
  induction f using Nat.strong_induction_on with
  | _ f ih =>
    have hpwin : ∀ g score opponent_score n, 1 ≤ f → 1 ≤ g →
        200 ≤ score + opponent_score + f → 200 ≤ score + opponent_score + g →
        probability_of_winning_by_rolling_n_fueled f score opponent_score n =
          probability_of_winning_by_rolling_n_fueled g score opponent_score n := by
      intro g score opp n hf hg hsf hsg
      obtain ⟨f1, rfl⟩ : ∃ f1, f = f1 + 1 := ⟨f - 1, by omega⟩
      obtain ⟨g1, rfl⟩ : ∃ g1, g = g1 + 1 := ⟨g - 1, by omega⟩
      rw [probability_of_winning_by_rolling_n_fueled,
        probability_of_winning_by_rolling_n_fueled]
      split
      · have hfb := one_le_free_bacon_score opp
        exact (ih f1 (by omega)).2.2 g1 _ _ (by omega) (by omega)
      · exact win_prob_sum_congr f1 g1 score opp n _ _
          (fun ps h1 _ => (ih f1 (by omega)).2.2 g1 _ _ (by omega) (by omega))
    have hbest : ∀ g score opponent_score, 1 ≤ f → 1 ≤ g →
        200 ≤ score + opponent_score + f → 200 ≤ score + opponent_score + g →
        best_num_dice_to_roll_fueled f score opponent_score =
          best_num_dice_to_roll_fueled g score opponent_score := by
      intro g score opp hf hg hsf hsg
      rw [best_num_dice_to_roll_fueled, best_num_dice_to_roll_fueled]
      exact best_scan_congr f g score opp
        (fun n => hpwin g score opp n hf hg hsf hsg) 11 0 0 1
    refine ⟨hpwin, hbest, ?_⟩
    intro g score opp hsf hsg
    have hsum := swine_swap_sum score opp
    have hGoal : GOAL_SCORE = 100 := rfl
    rw [probability_of_winning_with_turn_end_scores_fueled,
      probability_of_winning_with_turn_end_scores_fueled]
    split
    · rfl
    · split
      · rfl
      · rw [hbest g (swine_swap score opp).2 (swine_swap score opp).1
            (by omega) (by omega) (by omega) (by omega),
          hpwin g (swine_swap score opp).2 (swine_swap score opp).1 _
            (by omega) (by omega) (by omega) (by omega)]

/-- If no scanned probability strictly exceeds the running best probability,
the scan returns the incoming best roll count unchanged. -/
lemma best_scan_of_le (fuel score opponent_score : Nat) :
    ∀ r n (bp : ℚ) (bn : Nat),
      (∀ j, n ≤ j → j < n + r →
        probability_of_winning_by_rolling_n_fueled fuel score opponent_score j ≤ bp) →
      best_scan fuel score opponent_score n r bp bn = bn := by
  intro r
  induction r with
  | zero => intro n bp bn _; rw [best_scan]
  | succ r ih =>
    intro n bp bn h
    rw [best_scan, if_neg (not_lt.mpr (h n (Nat.le_refl n) (by omega)))]
    exact ih (n + 1) bp bn (fun j h1 h2 => h j (by omega) (by omega))

/-- If some scanned probability strictly exceeds the running best, the scan
returns the least index of the window maximum: an index `j` in the window
whose probability beats `bp`, is at least every probability in the window,
and strictly exceeds the probability of every earlier window index. -/
lemma best_scan_argmax (fuel score opponent_score : Nat) :
    ∀ r n (bp : ℚ) (bn : Nat),
      (∃ j, n ≤ j ∧ j < n + r ∧
        bp < probability_of_winning_by_rolling_n_fueled fuel score opponent_score j) →
      ∃ j, best_scan fuel score opponent_score n r bp bn = j ∧ n ≤ j ∧ j < n + r ∧
        bp < probability_of_winning_by_rolling_n_fueled fuel score opponent_score j ∧
        (∀ i, n ≤ i → i < n + r →
          probability_of_winning_by_rolling_n_fueled fuel score opponent_score i ≤
            probability_of_winning_by_rolling_n_fueled fuel score opponent_score j) ∧
        (∀ i, n ≤ i → i < j →
          probability_of_winning_by_rolling_n_fueled fuel score opponent_score i <
            probability_of_winning_by_rolling_n_fueled fuel score opponent_score j) := by
  intro r
  induction r with
  | zero =>
    intro n bp bn hex
    obtain ⟨j, h1, h2, _⟩ := hex
    exact (by omega : False).elim
  | succ r ih =>
    intro n bp bn hex
    rw [best_scan]
    by_cases hbp :
        bp < probability_of_winning_by_rolling_n_fueled fuel score opponent_score n
    · rw [if_pos hbp]
      by_cases hex2 : ∃ j, n + 1 ≤ j ∧ j < n + 1 + r ∧
          probability_of_winning_by_rolling_n_fueled fuel score opponent_score n <
            probability_of_winning_by_rolling_n_fueled fuel score opponent_score j
      · obtain ⟨j, hj_eq, hj1, hj2, hj3, hj4, hj5⟩ := ih (n + 1) _ n hex2
        refine ⟨j, hj_eq, by omega, by omega, lt_trans hbp hj3, ?_, ?_⟩
        · intro i hi1 hi2
          rcases Nat.eq_or_lt_of_le hi1 with rfl | hi
          · exact le_of_lt hj3
          · exact hj4 i (by omega) (by omega)
        · intro i hi1 hi2
          rcases Nat.eq_or_lt_of_le hi1 with rfl | hi
          · exact hj3
          · exact hj5 i (by omega) hi2
      · push_neg at hex2
        refine ⟨n, best_scan_of_le fuel score opponent_score r (n + 1) _ n hex2,
          Nat.le_refl n, by omega, hbp, ?_, ?_⟩
        · intro i hi1 hi2
          rcases Nat.eq_or_lt_of_le hi1 with rfl | hi
          · exact le_refl _
          · exact hex2 i (by omega) (by omega)
        · intro i hi1 hi2
          exact (by omega : False).elim
    · rw [if_neg hbp]
      obtain ⟨j0, hj01, hj02, hj03⟩ := hex
      have hj0n : j0 ≠ n := fun h => hbp (h ▸ hj03)
      obtain ⟨j, hj_eq, hj1, hj2, hj3, hj4, hj5⟩ :=
        ih (n + 1) bp bn ⟨j0, by omega, by omega, hj03⟩
      refine ⟨j, hj_eq, by omega, by omega, hj3, ?_, ?_⟩
      · intro i hi1 hi2
        rcases Nat.eq_or_lt_of_le hi1 with rfl | hi
        · exact le_of_lt (lt_of_le_of_lt (not_lt.mp hbp) hj3)
        · exact hj4 i (by omega) (by omega)
      · intro i hi1 hi2
        rcases Nat.eq_or_lt_of_le hi1 with rfl | hi
        · exact lt_of_le_of_lt (not_lt.mp hbp) hj3
        · exact hj5 i (by omega) hi2

/-- The best roll count is always in [0, 10], at any fuel. -/
lemma best_fueled_le_ten (fuel score opponent_score : Nat) :
    best_num_dice_to_roll_fueled fuel score opponent_score ≤ 10 := by
  rw [best_num_dice_to_roll_fueled]
  by_cases hex : ∃ j, 0 ≤ j ∧ j < 0 + 11 ∧
      (0 : ℚ) < probability_of_winning_by_rolling_n_fueled fuel score opponent_score j
  · obtain ⟨j, heq, _, hj2, _⟩ := best_scan_argmax fuel score opponent_score 11 0 0 1 hex
    omega
  · push_neg at hex
    rw [best_scan_of_le fuel score opponent_score 11 0 0 1 hex]
    omega

/-- When no roll count yields a probability strictly above the initial 0, the
scan returns the defensive fallback 1, at any fuel. -/
lemma best_fueled_fallback (fuel score opponent_score : Nat)
    (h : ∀ n, n ≤ 10 →
      probability_of_winning_by_rolling_n_fueled fuel score opponent_score n ≤ 0) :
    best_num_dice_to_roll_fueled fuel score opponent_score = 1 := by
  rw [best_num_dice_to_roll_fueled]
  exact best_scan_of_le fuel score opponent_score 11 0 0 1
    (fun j _ h2 => h j (by omega))

/-- When some roll count yields a strictly positive probability, the returned
roll count attains the maximum probability over [0, 10] and every smaller
roll count has a strictly smaller probability, at any fuel. -/
lemma best_fueled_argmax (fuel score opponent_score : Nat)
    (h : ∃ n, n ≤ 10 ∧
      (0 : ℚ) < probability_of_winning_by_rolling_n_fueled fuel score opponent_score n) :
    (∀ i, i ≤ 10 →
      probability_of_winning_by_rolling_n_fueled fuel score opponent_score i ≤
        probability_of_winning_by_rolling_n_fueled fuel score opponent_score
          (best_num_dice_to_roll_fueled fuel score opponent_score)) ∧
    (∀ i, i < best_num_dice_to_roll_fueled fuel score opponent_score →
      probability_of_winning_by_rolling_n_fueled fuel score opponent_score i <
        probability_of_winning_by_rolling_n_fueled fuel score opponent_score
          (best_num_dice_to_roll_fueled fuel score opponent_score)) := by
  obtain ⟨n0, hn0, hpos⟩ := h
  obtain ⟨j, heq, hj1, hj2, hj3, hj4, hj5⟩ :=
    best_scan_argmax fuel score opponent_score 11 0 0 1 ⟨n0, by omega, by omega, hpos⟩
  rw [best_num_dice_to_roll_fueled, heq]
  exact ⟨fun i hi2 => hj4 i (by omega) (by omega),
    fun i hi => hj5 i (by omega) hi⟩

/-- Specialization of `fuel_agree`: the state-value function is the same at
any two fuels of at least 200, whatever the scores. -/
lemma state_fuel_agree (f g a b : Nat) (hf : 200 ≤ f) (hg : 200 ≤ g) :
    probability_of_winning_with_turn_end_scores_fueled f a b =
      probability_of_winning_with_turn_end_scores_fueled g a b :=
  (fuel_agree f).2.2 g a b (by omega) (by omega)

/-- The turn-score loop of `probability_of_winning_by_rolling_n` computes the
sum, over `possible_score = 1 .. m`, of the scoring probability times the
state value at the turn-end scores. -/
lemma win_prob_sum_eq (f score opponent_score n sides : Nat) :
    ∀ m : Nat, win_prob_sum f score opponent_score n sides m =
      ∑ ps ∈ Finset.Icc 1 m, probability_of_scoring (ps : Int) n sides *
        probability_of_winning_with_turn_end_scores_fueled f (score + ps)
          opponent_score := by
  intro m
  induction m with
  | zero => rw [win_prob_sum]; simp
  | succ ps ih =>
    rw [win_prob_sum, ih, Finset.sum_Icc_succ_top (by omega : 1 ≤ ps + 1)]
    push_cast
    ring

/-- A score below the minimum `2 * n` (in particular any negative score) has
no realization by `n` dice drawn from faces 2 and above. -/
lemma ways_eq_zero_of_lt (s : Nat) :
    ∀ (n : Nat) (k : Int), k < 2 * (n : Int) →
      number_of_ways_to_score k n s = 0 := by
  intro n
  induction n with
  | zero =>
    intro k hk
    rw [number_of_ways_to_score, if_neg (by omega)]
  | succ n ih =>
    intro k hk
    rw [number_of_ways_to_score]
    refine Finset.sum_eq_zero (fun d hd => ih _ ?_)
    rw [Finset.mem_Icc] at hd
    have h2 : (2 : Int) ≤ (d : Int) := by exact_mod_cast hd.1
    omega

/-- A score above the maximum `s * n` has no realization by `n` dice with at
most `s` pips each. -/
lemma ways_eq_zero_of_gt (s : Nat) :
    ∀ (n : Nat) (k : Int), (s : Int) * n < k →
      number_of_ways_to_score k n s = 0 := by
  intro n
  induction n with
  | zero =>
    intro k hk
    rw [number_of_ways_to_score, if_neg (by omega)]
  | succ n ih =>
    intro k hk
    rw [number_of_ways_to_score]
    refine Finset.sum_eq_zero (fun d hd => ih _ ?_)
    rw [Finset.mem_Icc] at hd
    have h2 : (d : Int) ≤ (s : Int) := by exact_mod_cast hd.2
    push_cast at hk ⊢
    nlinarith

/-- The total number of outcomes of `n` dice with faces in [2, s] is
`(s - 1) ^ n`: summing `number_of_ways_to_score` over any score interval
covering the support [2n, sn] gives `(s - 1) ^ n`. -/
lemma ways_sum (s : Nat) (hs : 2 ≤ s) :
    ∀ (n : Nat) (lo hi : Int), lo ≤ 2 * (n : Int) → (s : Int) * n ≤ hi →
      ∑ k ∈ Finset.Icc lo hi, number_of_ways_to_score k n s = (s - 1) ^ n := by
  intro n
  induction n with
  | zero =>
    intro lo hi hlo hhi
    simp only [number_of_ways_to_score]
    rw [Finset.sum_ite_eq' (Finset.Icc lo hi) 0 (fun _ => 1),
      if_pos (Finset.mem_Icc.mpr ⟨by push_cast at hlo; omega, by push_cast at hhi; omega⟩)]
    rw [pow_zero]
  | succ n ih =>
    intro lo hi hlo hhi
    simp only [number_of_ways_to_score]
    rw [Finset.sum_comm]
    have hinner : ∀ d ∈ Finset.Icc 2 s,
        ∑ k ∈ Finset.Icc lo hi, number_of_ways_to_score (k - (d : Int)) n s =
          (s - 1) ^ n := by
      intro d hd
      rw [Finset.mem_Icc] at hd
      have h2 : (2 : Int) ≤ (d : Int) := by exact_mod_cast hd.1
      have h3 : (d : Int) ≤ (s : Int) := by exact_mod_cast hd.2
      have hIcc : Finset.Icc lo hi =
          (Finset.Icc (lo - (d : Int)) (hi - (d : Int))).map (addRightEmbedding (d : Int)) := by
        rw [Finset.map_add_right_Icc]
        congr 1 <;> omega
      rw [hIcc, Finset.sum_map]
      have harg : ∀ x : Int, (addRightEmbedding (d : Int)) x - (d : Int) = x := by
        intro x
        simp [addRightEmbedding]
      rw [Finset.sum_congr rfl (fun x _ => by rw [harg])]
      refine ih (lo - d) (hi - d) (by push_cast at hlo ⊢; omega) ?_
      push_cast at hhi ⊢
      nlinarith
    rw [Finset.sum_congr rfl hinner, Finset.sum_const, Nat.card_Icc, smul_eq_mul,
      pow_succ]
    have hcard : s + 1 - 2 = s - 1 := by omega
    rw [hcard, Nat.mul_comm]

/-- Normalization of the outcome distribution: for `n ≥ 1` dice with `s ≥ 2`
sides, the Pig Out probability plus the probabilities of all scores from 2
to `s * n` is exactly 1. -/
lemma prob_sum_norm (n s : Nat) (hn : 1 ≤ n) (hs : 2 ≤ s) :
    probability_of_scoring 1 n s +
      ∑ k ∈ Finset.Icc (2 : Int) ((s : Int) * n), probability_of_scoring k n s = 1 := by
  have h1 : ∀ k ∈ Finset.Icc (2 : Int) ((s : Int) * n), probability_of_scoring k n s =
      ((number_of_ways_to_score k n s : ℕ) : ℚ) / ((s ^ n : ℕ) : ℚ) := by
    intro k hk
    rw [Finset.mem_Icc] at hk
    rw [probability_of_scoring, if_neg (by omega)]
  have hpow : ((s ^ n : ℕ) : ℚ) ≠ 0 := by
    push_cast
    positivity
  rw [Finset.sum_congr rfl h1, ← Finset.sum_div, ← Nat.cast_sum,
    ways_sum s hs n 2 ((s : Int) * n) (by omega) (le_refl _),
    probability_of_scoring, if_pos rfl]
  field_simp

/-- The number of distinct ordered sequences of `n` dice faces, each drawn
from {2, ..., s}, whose sum equals `k`.  This is the mathematical contract
that `number_of_ways_to_score` is claimed to compute. -/
def seqCount (s n : Nat) (k : Int) : Nat :=
  Fintype.card {f : Fin n → ↥(Finset.Icc 2 s) //
    (∑ i, ((f i : Nat) : Int)) = k}

/-- With no dice there is exactly one sequence, the empty one, of sum 0. -/
lemma seqCount_zero (s : Nat) (k : Int) :
    seqCount s 0 k = if k = 0 then 1 else 0 := by
  unfold seqCount
  split
  case isTrue h =>
    subst h
    rw [Fintype.card_eq_one_iff]
    refine ⟨⟨fun i => i.elim0, by simp⟩, ?_⟩
    rintro ⟨g, hg⟩
    ext i
    exact i.elim0
  case isFalse h =>
    rw [Fintype.card_eq_zero_iff]
    refine ⟨fun g => h ?_⟩
    rw [← g.2]
    simp

/-- Splitting a sequence of `n + 1` faces into its first face and its tail
gives the recursion of `number_of_ways_to_score`. -/
lemma seqCount_succ (s n : Nat) (k : Int) :
    seqCount s (n + 1) k = ∑ d ∈ Finset.Icc 2 s, seqCount s n (k - (d : Int)) := by
  have e : {f : Fin (n + 1) → ↥(Finset.Icc 2 s) //
        (∑ i, ((f i : Nat) : Int)) = k} ≃
      Σ d : ↥(Finset.Icc 2 s),
        {g : Fin n → ↥(Finset.Icc 2 s) //
          (∑ i, ((g i : Nat) : Int)) = k - ((d : Nat) : Int)} := by
    refine ⟨fun f => ⟨f.1 0, ⟨fun i => f.1 i.succ, ?_⟩⟩,
      fun p => ⟨Fin.cons p.1 p.2.1, ?_⟩, ?_, ?_⟩
    · have hf := f.2
      rw [Fin.sum_univ_succ] at hf
      simp only []
      omega
    · have hg := p.2.2
      simp only [Fin.sum_univ_succ, Fin.cons_zero, Fin.cons_succ]
      omega
    · rintro ⟨f, hf⟩
      apply Subtype.ext
      exact Fin.cons_self_tail f
    · rintro ⟨⟨d, hd⟩, g, hg⟩
      rfl
  rw [seqCount, Fintype.card_congr e, Fintype.card_sigma,
    ← Finset.sum_coe_sort (Finset.Icc 2 s) (fun d => seqCount s n (k - (d : Int)))]
  rfl

/-- Correctness of the combinatorics engine: `number_of_ways_to_score k n s`
is the number of distinct ordered sequences of `n` faces from {2, ..., s}
summing to `k`. -/
lemma ways_eq_seqCount (s : Nat) :
    ∀ (n : Nat) (k : Int), number_of_ways_to_score k n s = seqCount s n k := by
  intro n
  induction n with
  | zero => intro k; rw [number_of_ways_to_score, seqCount_zero]
  | succ n ih =>
    intro k
    rw [number_of_ways_to_score, seqCount_succ]
    exact Finset.sum_congr rfl (fun d _ => ih _)

/-- Reindexing a sum over the natural interval [a, b] as a sum over the
integer interval [a, b]. -/
lemma sum_Icc_natCast (a b : Nat) (f : Int → ℚ) :
    ∑ ps ∈ Finset.Icc a b, f (ps : Int) =
      ∑ k ∈ Finset.Icc (a : Int) (b : Int), f k := by
  refine Finset.sum_nbij' (fun ps => (ps : Int)) (fun k => k.toNat) ?_ ?_ ?_ ?_ ?_
  · intro ps hps
    simp only [Finset.mem_Icc] at hps ⊢
    omega
  · intro k hk
    simp only [Finset.mem_Icc] at hk ⊢
    omega
  · intro ps _
    simp only []
    omega
  · intro k hk
    simp only [Finset.mem_Icc] at hk
    simp only []
    omega
  · intro ps _
    rfl

/-- Embeds hog.py `roll_dice(num_rolls, dice)`.  The dice are modelled as the
stream of outcomes `dice 0, dice 1, ...`; the asserts (`num_rolls` must be a
positive integer) become the `none` branch; the while loop accumulates the
sum of the outcomes and returns 1 when some outcome is 1 (Pig Out). -/
def roll_dice (num_rolls : Int) (dice : Nat → Int) : Option Int :=
  if 0 < num_rolls then
    some (if ((List.range num_rolls.toNat).map dice).contains 1 then 1
          else ((List.range num_rolls.toNat).map dice).sum)
  else none

/-- Embeds hog.py `take_turn(num_rolls, opponent_score, dice)`.  The asserts
(`0 ≤ num_rolls ≤ 10` and `opponent_score < 100`) become the `none` branch;
rolling 0 dice yields the Free Bacon score (Python `%` and `//` on possibly
negative ints are `Int.emod` and `Int.ediv`, which agree with Python for the
positive divisor 10), otherwise the result of `roll_dice`. -/
def take_turn (num_rolls : Int) (opponent_score : Int) (dice : Nat → Int) : Option Int :=
  if 0 ≤ num_rolls ∧ num_rolls ≤ 10 ∧ opponent_score < 100 then
    if num_rolls = 0 then
      some (max (Int.emod opponent_score 10) (Int.ediv opponent_score 10) + 1)
    else
      roll_dice num_rolls dice
  else none

/-- C1: for every state with both scores in [0, 99], the state-value function
first applies the Swine Swap normalization, then returns 1 if the (swapped)
mover score is at least 100, 0 if the (swapped) opponent score is at least
100, and otherwise one minus the opponent's winning probability under the
opponent's best roll count; in particular the value at (100, 0) is 1 and at
(0, 100) is 0. -/
theorem hog_C1 : (∀ a b : Nat, a ≤ 99 → b ≤ 99 →
    probability_of_winning_with_turn_end_scores a b =
      if 100 ≤ (swine_swap a b).1 then 1
      else if 100 ≤ (swine_swap a b).2 then 0
      else 1 - probability_of_winning_by_rolling_n (swine_swap a b).2 (swine_swap a b).1
        (best_num_dice_to_roll (swine_swap a b).2 (swine_swap a b).1)) ∧
    probability_of_winning_with_turn_end_scores 100 0 = 1 ∧
    probability_of_winning_with_turn_end_scores 0 100 = 0 := by
  refine ⟨fun a b _ _ => ?_, ?_, ?_⟩
  · rw [probability_of_winning_with_turn_end_scores,
      probability_of_winning_with_turn_end_scores_fueled]
    rfl
  · rw [probability_of_winning_with_turn_end_scores,
      probability_of_winning_with_turn_end_scores_fueled, swine_swap,
      if_neg (by decide : ¬(100 * 2 = 0 ∨ 0 * 2 = 100)),
      if_pos (by decide : GOAL_SCORE ≤ ((100 : Nat), (0 : Nat)).1)]
  · rw [probability_of_winning_with_turn_end_scores,
      probability_of_winning_with_turn_end_scores_fueled, swine_swap,
      if_neg (by decide : ¬(0 * 2 = 100 ∨ 100 * 2 = 0)),
      if_neg (by decide : ¬(GOAL_SCORE ≤ ((0 : Nat), (100 : Nat)).1)),
      if_pos (by decide : GOAL_SCORE ≤ ((0 : Nat), (100 : Nat)).2)]

/-- Witness for C1 at the concrete in-range state (3, 5). -/
theorem hog_C1_witness : (3 : Nat) ≤ 99 ∧ (5 : Nat) ≤ 99 ∧
    probability_of_winning_with_turn_end_scores 3 5 =
      if 100 ≤ (swine_swap 3 5).1 then 1
      else if 100 ≤ (swine_swap 3 5).2 then 0
      else 1 - probability_of_winning_by_rolling_n (swine_swap 3 5).2 (swine_swap 3 5).1
        (best_num_dice_to_roll (swine_swap 3 5).2 (swine_swap 3 5).1) :=
  ⟨by decide, by decide, hog_C1.1 3 5 (by decide) (by decide)⟩

/-- C2: for every state with opponent score below 100 and every roll count in
[0, 10], the turn-value function returns the state value after a Free Bacon
move when `n = 0`, and otherwise the sum over the possible turn scores
`1 .. sides*n` of the scoring probability times the state value, where the
Free Bacon score is `max(opponent mod 10, opponent div 10) + 1` and the dice
have 4 sides when the score total is a multiple of 7 and 6 sides otherwise. -/
theorem hog_C2 : ∀ (score opponent_score n : Nat), opponent_score < 100 → n ≤ 10 →
    probability_of_winning_by_rolling_n score opponent_score n =
      if n = 0 then
        probability_of_winning_with_turn_end_scores
          (score + (max (opponent_score % 10) (opponent_score / 10) + 1)) opponent_score
      else
        ∑ ps ∈ Finset.Icc 1 ((if (score + opponent_score) % 7 = 0 then 4 else 6) * n),
          probability_of_scoring (ps : Int) n
              (if (score + opponent_score) % 7 = 0 then 4 else 6) *
            probability_of_winning_with_turn_end_scores (score + ps) opponent_score := by
  intro score opp n _ _
  rw [probability_of_winning_by_rolling_n, show FUEL = 200 + 1 from rfl,
    probability_of_winning_by_rolling_n_fueled]
  by_cases hn : n = 0
  · rw [if_pos hn, if_pos hn, probability_of_winning_with_turn_end_scores]
    exact state_fuel_agree 200 FUEL _ _ (by omega) (by decide)
  · rw [if_neg hn, if_neg hn, win_prob_sum_eq]
    refine Finset.sum_congr rfl (fun ps _ => ?_)
    rw [state_fuel_agree 200 FUEL (score + ps) opp (by omega) (by decide)]
    rfl

/-- Witness for C2 at the concrete input score 0, opponent score 0, n 1. -/
theorem hog_C2_witness : (0 : Nat) < 100 ∧ (1 : Nat) ≤ 10 ∧
    probability_of_winning_by_rolling_n 0 0 1 =
      if (1 : Nat) = 0 then
        probability_of_winning_with_turn_end_scores (0 + (max (0 % 10) (0 / 10) + 1)) 0
      else
        ∑ ps ∈ Finset.Icc (1 : Nat) ((if ((0 : Nat) + 0) % 7 = 0 then 4 else 6) * 1),
          probability_of_scoring (ps : Int) 1 (if ((0 : Nat) + 0) % 7 = 0 then 4 else 6) *
            probability_of_winning_with_turn_end_scores (0 + ps) 0 :=
  ⟨by decide, by decide, hog_C2 0 0 1 (by decide) (by decide)⟩

/-- C4: the mutual recursion terminates on every state with both scores in
[0, 99]: since every turn-level recursive call adds at least one point to
the mover's score and the recursion stops once either score reaches 100,
the fueled evaluation is independent of the fuel once the fuel is at least
200, i.e. the recursion stabilizes after finitely many turns. -/
theorem hog_C4 : ∀ (f g a b : Nat), 200 ≤ f → 200 ≤ g → a ≤ 99 → b ≤ 99 →
    probability_of_winning_with_turn_end_scores_fueled f a b =
      probability_of_winning_with_turn_end_scores_fueled g a b ∧
    (∀ n, probability_of_winning_by_rolling_n_fueled f a b n =
      probability_of_winning_by_rolling_n_fueled g a b n) ∧
    best_num_dice_to_roll_fueled f a b = best_num_dice_to_roll_fueled g a b := by
  intro f g a b hf hg _ _
  exact ⟨(fuel_agree f).2.2 g a b (by omega) (by omega),
    fun n => (fuel_agree f).1 g a b n (by omega) (by omega) (by omega) (by omega),
    (fuel_agree f).2.1 g a b (by omega) (by omega) (by omega) (by omega)⟩

/-- Witness for C4 at fuels 200 and 201 and the concrete state (0, 0). -/
theorem hog_C4_witness :
    (200 : Nat) ≤ 200 ∧ (200 : Nat) ≤ 201 ∧ (0 : Nat) ≤ 99 ∧
    (probability_of_winning_with_turn_end_scores_fueled 200 0 0 =
      probability_of_winning_with_turn_end_scores_fueled 201 0 0 ∧
    (∀ n, probability_of_winning_by_rolling_n_fueled 200 0 0 n =
      probability_of_winning_by_rolling_n_fueled 201 0 0 n) ∧
    best_num_dice_to_roll_fueled 200 0 0 = best_num_dice_to_roll_fueled 201 0 0) :=
  ⟨by decide, by decide, by decide,
    hog_C4 200 201 0 0 (by decide) (by decide) (by decide) (by decide)⟩

/-- C10: because the Swine Swap normalization runs before the terminal
checks, a mover who ends a turn at exactly 100 points against an opponent
at 50 has the scores swapped and loses: the state value at (100, 50) is 0. -/
theorem hog_C10 : probability_of_winning_with_turn_end_scores 100 50 = 0 := by
  rw [probability_of_winning_with_turn_end_scores,
    probability_of_winning_with_turn_end_scores_fueled, swine_swap,
    if_pos (by decide : 100 * 2 = 50 ∨ 50 * 2 = 100),
    if_neg (by decide : ¬(GOAL_SCORE ≤ ((50 : Nat), (100 : Nat)).1)),
    if_pos (by decide : GOAL_SCORE ≤ ((50 : Nat), (100 : Nat)).2)]

/-- C3: the optimal-move selector returns a roll count in [0, 10]; it scans
roll counts in ascending order and replaces the running best only on a
strictly greater probability, so the returned roll count attains the
maximum probability and every smaller roll count has a strictly smaller
probability; and when no roll count beats the initial probability 0, it
returns the defensive fallback 1. -/
theorem hog_C3 : ∀ (score opponent_score : Nat), opponent_score < 100 →
    best_num_dice_to_roll score opponent_score ≤ 10 ∧
    ((∀ n, n ≤ 10 →
        probability_of_winning_by_rolling_n score opponent_score n ≤ 0) →
      best_num_dice_to_roll score opponent_score = 1) ∧
    ((∃ n, n ≤ 10 ∧
        0 < probability_of_winning_by_rolling_n score opponent_score n) →
      (∀ i, i ≤ 10 →
        probability_of_winning_by_rolling_n score opponent_score i ≤
          probability_of_winning_by_rolling_n score opponent_score
            (best_num_dice_to_roll score opponent_score)) ∧
      (∀ i, i < best_num_dice_to_roll score opponent_score →
        probability_of_winning_by_rolling_n score opponent_score i <
          probability_of_winning_by_rolling_n score opponent_score
            (best_num_dice_to_roll score opponent_score))) := by
  intro score opp _
  exact ⟨best_fueled_le_ten FUEL score opp, best_fueled_fallback FUEL score opp,
    best_fueled_argmax FUEL score opp⟩

/-- Witness for C3 at the concrete state (0, 0). -/
theorem hog_C3_witness : (0 : Nat) < 100 ∧
    (best_num_dice_to_roll 0 0 ≤ 10 ∧
    ((∀ n, n ≤ 10 → probability_of_winning_by_rolling_n 0 0 n ≤ 0) →
      best_num_dice_to_roll 0 0 = 1) ∧
    ((∃ n, n ≤ 10 ∧ 0 < probability_of_winning_by_rolling_n 0 0 n) →
      (∀ i, i ≤ 10 →
        probability_of_winning_by_rolling_n 0 0 i ≤
          probability_of_winning_by_rolling_n 0 0 (best_num_dice_to_roll 0 0)) ∧
      (∀ i, i < best_num_dice_to_roll 0 0 →
        probability_of_winning_by_rolling_n 0 0 i <
          probability_of_winning_by_rolling_n 0 0 (best_num_dice_to_roll 0 0)))) :=
  ⟨by decide, hog_C3 0 0 (by decide)⟩

/-- C5: the outcome probability model returns `1 - ((s-1)/s)^n` for the Pig
Out score `k = 1` and `waysToScore(k, n, s) / s^n` for `k ≥ 2`; in
particular the probability of scoring 1 with one six-sided die is 1/6. -/
theorem hog_C5 : (∀ (n s : Nat) (k : Int), 1 ≤ n → (s = 4 ∨ s = 6) →
    (k = 1 → probability_of_scoring k n s =
      1 - ((((s - 1) : Nat) : ℚ) / ((s : Nat) : ℚ)) ^ n) ∧
    (2 ≤ k → probability_of_scoring k n s =
      ((number_of_ways_to_score k n s : Nat) : ℚ) / (((s : Nat) : ℚ)) ^ n)) ∧
    probability_of_scoring 1 1 6 = 1 / 6 := by
  refine ⟨fun n s k _ _ => ⟨fun hk => ?_, fun hk => ?_⟩, ?_⟩
  · subst hk
    rw [probability_of_scoring, if_pos rfl, Nat.cast_pow, Nat.cast_pow, div_pow]
  · rw [probability_of_scoring, if_neg (by omega), Nat.cast_pow]
  · rw [probability_of_scoring, if_pos rfl]
    norm_num

/-- Witness for C5 at n 1, s 6, k 1. -/
theorem hog_C5_witness : (1 : Nat) ≤ 1 ∧ ((6 : Nat) = 4 ∨ (6 : Nat) = 6) ∧
    (((1 : Int) = 1 → probability_of_scoring 1 1 6 =
      1 - ((((6 - 1) : Nat) : ℚ) / ((6 : Nat) : ℚ)) ^ 1) ∧
    ((2 : Int) ≤ 1 → probability_of_scoring 1 1 6 =
      ((number_of_ways_to_score 1 1 6 : Nat) : ℚ) / (((6 : Nat) : ℚ)) ^ 1)) :=
  ⟨by decide, by decide, hog_C5.1 1 6 1 (by decide) (by decide)⟩

/-- C6: the combinatorics engine counts exactly the ordered sequences of `n`
faces from {2, ..., s} summing to `k`: the base case n 0 returns 1 iff
k 0, the recursive case sums over the faces 2 to s, a negative target
yields 0 with no guard, and in particular there are 4 ways to score 7 with
two six-sided dice, giving scoring probability 1/9. -/
theorem hog_C6 :
    (∀ (n s : Nat) (k : Int), (s = 4 ∨ s = 6) →
      number_of_ways_to_score k n s = seqCount s n k) ∧
    (∀ (s : Nat) (k : Int), number_of_ways_to_score k 0 s =
      if k = 0 then 1 else 0) ∧
    (∀ (n s : Nat) (k : Int), number_of_ways_to_score k (n + 1) s =
      ∑ d ∈ Finset.Icc 2 s, number_of_ways_to_score (k - (d : Int)) n s) ∧
    (∀ (n s : Nat) (k : Int), k < 0 → number_of_ways_to_score k n s = 0) ∧
    number_of_ways_to_score 7 2 6 = 4 ∧
    probability_of_scoring 7 2 6 = 1 / 9 := by
  refine ⟨fun n s k _ => ways_eq_seqCount s n k,
    fun s k => by rw [number_of_ways_to_score],
    fun n s k => by rw [number_of_ways_to_score],
    fun n s k hk => ways_eq_zero_of_lt s n k (by omega),
    by decide, ?_⟩
  rw [probability_of_scoring, if_neg (by decide),
    (by decide : number_of_ways_to_score 7 2 6 = 4)]
  norm_num

/-- Witness for C6: the sequence-count reading at (7, 2, 6) and the
negative-score case at (-3, 1, 6). -/
theorem hog_C6_witness : ((6 : Nat) = 4 ∨ (6 : Nat) = 6) ∧ ((-3 : Int) < 0) ∧
    number_of_ways_to_score 7 2 6 = seqCount 6 2 7 ∧
    number_of_ways_to_score (-3) 1 6 = 0 :=
  ⟨by decide, by decide, hog_C6.1 2 6 7 (by decide),
    hog_C6.2.2.2.1 1 6 (-3) (by decide)⟩

/-- C7: the outcome distribution is normalized: for `n ≥ 1` dice with
`s ∈ {4, 6}` sides, the probability of the Pig Out score 1 plus the
probabilities of the scores 2 through `s*n` is exactly 1 in rational
arithmetic. -/
theorem hog_C7 : ∀ (n s : Nat), 1 ≤ n → (s = 4 ∨ s = 6) →
    probability_of_scoring 1 n s +
      ∑ k ∈ Finset.Icc (2 : Int) ((s : Int) * n), probability_of_scoring k n s = 1 := by
  intro n s hn hs
  exact prob_sum_norm n s hn (by omega)

/-- Any turn-end state reached from (99, 0) by gaining at least one point is
an immediate win for the mover, at any fuel. -/
lemma state_99_win (f ps : Nat) (h : 1 ≤ ps) :
    probability_of_winning_with_turn_end_scores_fueled f (99 + ps) 0 = 1 := by
  rw [probability_of_winning_with_turn_end_scores_fueled, swine_swap,
    if_neg (by omega : ¬((99 + ps) * 2 = 0 ∨ 0 * 2 = 99 + ps))]
  have h1 : GOAL_SCORE ≤ ((99 + ps : Nat), (0 : Nat)).1 := by
    show GOAL_SCORE ≤ 99 + ps
    simp only [GOAL_SCORE]
    omega
  rw [if_pos h1]

/-- From the state (99, 0) every roll count, including Free Bacon, wins with
probability exactly 1, at any positive fuel. -/
lemma pwin_99_one (f n : Nat) :
    probability_of_winning_by_rolling_n_fueled (f + 1) 99 0 n = 1 := by
  rw [probability_of_winning_by_rolling_n_fueled]
  by_cases hn : n = 0
  · rw [if_pos hn]
    have hfb : free_bacon_score 0 = 1 := rfl
    rw [hfb]
    exact state_99_win f 1 (Nat.le_refl 1)
  · rw [if_neg hn, win_prob_sum_eq]
    have hsides : select_sides 99 0 = 6 := rfl
    rw [hsides]
    have hstep : ∀ ps ∈ Finset.Icc 1 (6 * n),
        probability_of_scoring (ps : Int) n 6 *
          probability_of_winning_with_turn_end_scores_fueled f (99 + ps) 0 =
        probability_of_scoring (ps : Int) n 6 := by
      intro ps hps
      rw [Finset.mem_Icc] at hps
      rw [state_99_win f ps hps.1, mul_one]
    rw [Finset.sum_congr rfl hstep]
    have hn1 : 1 ≤ n := by omega
    have hIcc : Finset.Icc (1 : Nat) (6 * n) = insert 1 (Finset.Icc 2 (6 * n)) := by
      ext x
      simp only [Finset.mem_Icc, Finset.mem_insert]
      omega
    rw [hIcc, Finset.sum_insert (by simp [Finset.mem_Icc]),
      sum_Icc_natCast 2 (6 * n) (fun k => probability_of_scoring k n 6),
      (by push_cast; ring : ((6 * n : Nat) : Int) = (6 : Int) * n)]
    exact prob_sum_norm n 6 hn1 (by omega)

/-- From (99, 0) the scan already sees probability 1 at roll count 0 and
never strictly improves on it, so the selector returns 0. -/
lemma best_99_zero : best_num_dice_to_roll 99 0 = 0 := by
  have hall : ∀ n, probability_of_winning_by_rolling_n_fueled FUEL 99 0 n = 1 :=
    fun n => pwin_99_one 200 n
  obtain ⟨j, heq, hj1, hj2, hj3, hj4, hj5⟩ :=
    best_scan_argmax FUEL 99 0 11 0 0 1
      ⟨0, by omega, by omega, by rw [hall 0]; norm_num⟩
  have hj0 : j = 0 := by
    by_contra hne
    have hlt := hj5 0 (by omega) (by omega)
    rw [hall 0, hall j] at hlt
    exact lt_irrefl 1 hlt
  rw [best_num_dice_to_roll, best_num_dice_to_roll_fueled, heq, hj0]

/-- Counterexample to C8 as stated: at (99, 0) the selected roll count 0 does
not have the unique maximum probability, since roll count 1 achieves the
same probability. -/
theorem hog_C8_counterexample :
    best_num_dice_to_roll 99 0 = 0 ∧
    probability_of_winning_by_rolling_n 99 0 1 =
      probability_of_winning_by_rolling_n 99 0 (best_num_dice_to_roll 99 0) ∧
    (1 : Nat) ≠ best_num_dice_to_roll 99 0 := by
  have hall : ∀ n, probability_of_winning_by_rolling_n 99 0 n = 1 :=
    fun n => pwin_99_one 200 n
  refine ⟨best_99_zero, ?_, ?_⟩
  · rw [hall 1, hall _]
  · rw [best_99_zero]
    decide

/-- C8 amended: every roll count n in [1, 10] from (99, 0) wins with
probability exactly 1; the selector returns roll count 0 (Free Bacon also
wins with probability 1), whose probability is a maximum over all roll
counts in [0, 10], though not a unique one. -/
theorem hog_C8 :
    (∀ n, 1 ≤ n → n ≤ 10 → probability_of_winning_by_rolling_n 99 0 n = 1) ∧
    best_num_dice_to_roll 99 0 = 0 ∧
    probability_of_winning_by_rolling_n 99 0 (best_num_dice_to_roll 99 0) = 1 ∧
    (∀ n, n ≤ 10 → probability_of_winning_by_rolling_n 99 0 n ≤
      probability_of_winning_by_rolling_n 99 0 (best_num_dice_to_roll 99 0)) := by
  have hall : ∀ n, probability_of_winning_by_rolling_n 99 0 n = 1 :=
    fun n => pwin_99_one 200 n
  exact ⟨fun n _ _ => hall n, best_99_zero, hall _,
    fun n _ => by rw [hall n, hall _]⟩

/-- Witness for C8 at the concrete roll count 1. -/
theorem hog_C8_witness : (1 : Nat) ≤ 1 ∧ (1 : Nat) ≤ 10 ∧
    probability_of_winning_by_rolling_n 99 0 1 = 1 :=
  ⟨by decide, by decide, hog_C8.1 1 (by decide) (by decide)⟩

/-- Counterexample to C9 as stated: a negative point value (opponent score
-5) does not make `take_turn` fail fast; the turn completes normally and
returns the Free Bacon score 6. -/
theorem hog_C9_counterexample :
    take_turn 0 (-5) (fun _ => 2) = some 6 ∧ (-5 : Int) < 0 := by
  constructor
  · decide
  · decide

/-- C9 amended: `take_turn` fails fast exactly when `num_rolls` is outside
[0, 10] or the opponent score is at or beyond 100 (integrality of the roll
count is enforced by the types); in particular it performs no negativity
check on scores, and on all other inputs it completes normally. -/
theorem hog_C9 : ∀ (num_rolls opponent_score : Int) (dice : Nat → Int),
    take_turn num_rolls opponent_score dice = none ↔
      (num_rolls < 0 ∨ 10 < num_rolls ∨ 100 ≤ opponent_score) := by
  intro nr os dice
  rw [take_turn]
  by_cases h : 0 ≤ nr ∧ nr ≤ 10 ∧ os < 100
  · rw [if_pos h]
    have hne : (if nr = 0 then some (max (Int.emod os 10) (Int.ediv os 10) + 1)
        else roll_dice nr dice) ≠ none := by
      by_cases h0 : nr = 0
      · rw [if_pos h0]
        simp
      · rw [if_neg h0, roll_dice, if_pos (by omega : (0 : Int) < nr)]
        simp
    constructor
    · intro hnone
      exact absurd hnone hne
    · intro hbad
      exact (by omega : False).elim
  · rw [if_neg h]
    constructor
    · intro _
      omega
    · intro _
      rfl

/-- Witness for C7 at n 1, s 6. -/
theorem hog_C7_witness : (1 : Nat) ≤ 1 ∧ ((6 : Nat) = 4 ∨ (6 : Nat) = 6) ∧
    probability_of_scoring 1 1 6 +
      ∑ k ∈ Finset.Icc (2 : Int) ((6 : Int) * 1), probability_of_scoring k 1 6 = 1 :=
  ⟨by decide, by decide, hog_C7 1 6 (by decide) (by decide)⟩

end Hog
